import Mathlib

/-!
Verification of the p1bench perturbation benchmark (p1bench.c).

The C code's doubles are modelled as rationals, its unsigned 64-bit
arithmetic as naturals reduced modulo 2^64 where overflow can occur, and
its int casts/arithmetic as integers with C truncation semantics.
-/

namespace P1bench

/-- The histogram bucket count, macro BUCKETS in p1bench.c. -/
def BUCKETS : ℤ := 200

/-- C truncation of a floating value to int, as performed by a cast
such as the cast to int in hist_idx: truncation toward zero. -/
def c_trunc (q : ℚ) : ℤ := if q < 0 then ⌈q⌉ else ⌊q⌋

/-- The local variable idx of hist_idx before the clamp (p1bench.c
lines 180-189): the piecewise step-size mapping of a percent-slower
value to a bucket index. -/
def hist_idx_raw (value : ℚ) : ℤ :=
  if value < 1 then c_trunc (10 * value)
  else if value < 20 then 10 + c_trunc (value - 1)
  else 29 + c_trunc ((value - 20) / 10)

/-- The function hist_idx of p1bench.c (lines 178-194): map a
percent-slower value to a histogram bucket index, with a piecewise
step size and an upper clamp to the last bucket. -/
def hist_idx (value : ℚ) (buckets : ℤ) : ℤ :=
  if hist_idx_raw value > buckets - 1 then buckets - 1 else hist_idx_raw value

/-- The function hist_val of p1bench.c (lines 197-209): map a bucket
index to the minimum percent-slower value of that bucket. -/
def hist_val (idx : ℤ) : ℚ :=
  if idx < 10 then (idx : ℚ) / 10
  else if idx < 29 then (idx : ℚ) - 10 + 1
  else ((idx : ℚ) - 29) * 10 + 20

/-- The step-size band a bucket index belongs to, following the three
ranges of the histogram scale: 0 for the 0.1-step range (indices 0-9),
1 for the 1-step range (indices 10-28), 2 for the 10-step range. -/
def stepBand (i : ℤ) : ℤ := if i < 10 then 0 else if i < 29 then 1 else 2

/-- The percent-slower-than-fastest value computed in main
(lines 403-404): 100 * (run_elapsed / fastest_elapsed - 1). -/
def percentSlower (t fastest : ℕ) : ℚ := 100 * ((t : ℚ) / (fastest : ℚ) - 1)

/-- The running minimum of the elapsed times, as maintained by main's
run loop: fastest_time_us starts at ~0ULL and takes the minimum with
each completed run's elapsed time. -/
def fastestOf (l : List ℕ) : ℕ := l.foldl min (2 ^ 64 - 1)

/-- The histogram pass of main (lines 400-414): for each completed
run, bucket its percent-slower value and increment that bucket; the
negative-index check aborts (modelled as none). -/
def histPass (fastest : ℕ) : List ℕ → (ℕ → ℕ) → Option (ℕ → ℕ)
  | [], hist => some hist
  | t :: rest, hist =>
    if hist_idx (percentSlower t fastest) BUCKETS < 0 then none
    else histPass fastest rest
      (fun j => if (j : ℤ) = hist_idx (percentSlower t fastest) BUCKETS
        then hist j + 1 else hist j)

/-- Reinterpretation of an unsigned value as a 32-bit int, as happens
when ullcmp returns the unsigned 64-bit difference through its int
return type: keep the low 32 bits, two's complement signed. -/
def wrap_int32 (n : ℕ) : ℤ :=
  if n % 2 ^ 32 < 2 ^ 31 then ((n % 2 ^ 32 : ℕ) : ℤ)
  else ((n % 2 ^ 32 : ℕ) : ℤ) - 2 ^ 32

/-- The qsort comparator ullcmp of p1bench.c (lines 211-216): the
unsigned long long difference a - b (mod 2^64), converted to int. -/
def ullcmp (a b : ℕ) : ℤ := wrap_int32 ((a + (2 ^ 64 - b)) % 2 ^ 64)

/-- The final extrapolation of find_count (lines 147-169), as a
function of the candidate iteration count and the observed trial
times: fastest_time_us starts at ~0ULL and takes the minimum over the
timed trials, and the returned target count is
iter_count * target_us / fastest_time_us in unsigned 64-bit
arithmetic. -/
def find_count (target_us iter_count : ℕ) (trial_times : List ℕ) : ℕ :=
  let fastest_time_us := trial_times.foldl min (2 ^ 64 - 1)
  iter_count * target_us % 2 ^ 64 / fastest_time_us

/-- Which percentiles main prints (lines 443-462): the 50th behind
runs >= 3, the 90th behind runs >= 10, the 99th behind runs >= 100,
and the 100th unconditionally. -/
def reportedPercentiles (runs : ℕ) : List ℕ :=
  (if 3 ≤ runs then [50] else []) ++
  (if 10 ≤ runs then [90] else []) ++
  (if 100 ≤ runs then [99] else []) ++ [100]

/-- The 0-based index runs * p / 100 - 1 used by main to read the
p-th percentile from the sorted runs_us array (int arithmetic: the
division is a nonnegative truncating division, then 1 is
subtracted). -/
def pctIndex (runs p : ℕ) : ℤ := ((runs * p / 100 : ℕ) : ℤ) - 1

/-- Every index into the sorted runs_us array read by main's summary
output (lines 442-475), in order: the gated 50th/90th/99th percentile
reads, then the unconditional reads for the 100th percentile
(runs - 1), the absolute median (runs * 50 / 100 - 1), the fastest
rate (0), the median rate, and the slowest rate (runs - 1). -/
def summaryIndices (runs : ℕ) : List ℤ :=
  (if 3 ≤ runs then [pctIndex runs 50] else []) ++
  (if 10 ≤ runs then [pctIndex runs 90] else []) ++
  (if 100 ≤ runs then [pctIndex runs 99] else []) ++
  [(runs : ℤ) - 1, pctIndex runs 50, 0, pctIndex runs 50, (runs : ℤ) - 1]

/-- One advance of the memory-scan pointer in memrun and memtest
(lines 88-93 and 107-112): add the stride, and wrap back to the start
only when the new offset strictly exceeds the working-set size. -/
def memStep (stride memsize off : ℕ) : ℕ :=
  if off + stride > memsize then 0 else off + stride

/-- The sequence of offsets read from the working-set buffer by the
iteration-bounded memory scan memrun (lines 99-114), starting from a
given offset: each iteration reads at the current offset and then
advances with memStep. memtest (lines 79-97) performs the same read
and advance per unit of work, so after n units it has read the same
offsets. -/
def memrunOffsets (stride memsize : ℕ) : ℕ → ℕ → List ℕ
  | 0, _ => []
  | Nat.succ n, off => off :: memrunOffsets stride memsize n (memStep stride memsize off)

/-! ### Supporting lemmas -/

/-- On nonnegative values, C truncation toward zero agrees with floor. -/
lemma c_trunc_of_nonneg {q : ℚ} (h : 0 ≤ q) : c_trunc q = ⌊q⌋ := by
  rw [c_trunc, if_neg (not_lt.mpr h)]

/-- The raw bucket index is nonnegative on nonnegative values. -/
lemma hist_idx_raw_nonneg {v : ℚ} (hv : 0 ≤ v) : 0 ≤ hist_idx_raw v := by
  unfold hist_idx_raw
  split_ifs with h1 h2
  · rw [c_trunc_of_nonneg (by positivity)]
    exact Int.floor_nonneg.mpr (by positivity)
  · have h1' : (1 : ℚ) ≤ v := not_lt.mp h1
    rw [c_trunc_of_nonneg (by linarith)]
    have := Int.floor_nonneg.mpr (show (0 : ℚ) ≤ v - 1 by linarith)
    linarith
  · have h2' : (20 : ℚ) ≤ v := not_lt.mp h2
    rw [c_trunc_of_nonneg (div_nonneg (by linarith) (by norm_num))]
    have := Int.floor_nonneg.mpr (div_nonneg (show (0 : ℚ) ≤ v - 20 by linarith)
      (by norm_num : (0 : ℚ) ≤ 10))
    linarith

/-- The clamped bucket index is the minimum of 199 and the raw index. -/
lemma hist_idx_eq_min (v : ℚ) : hist_idx v BUCKETS = min 199 (hist_idx_raw v) := by
  simp only [hist_idx, BUCKETS]
  split_ifs with h
  · rw [min_eq_left (by omega)]; norm_num
  · rw [min_eq_right (by omega)]

/-- The bucket index with 200 buckets never exceeds 199. -/
lemma hist_idx_le (v : ℚ) : hist_idx v BUCKETS ≤ 199 := by
  rw [hist_idx_eq_min]; exact min_le_left _ _

/-- The bucket index is nonnegative on nonnegative values. -/
lemma hist_idx_nonneg {v : ℚ} (hv : 0 ≤ v) : 0 ≤ hist_idx v BUCKETS := by
  rw [hist_idx_eq_min]
  exact le_min (by norm_num) (hist_idx_raw_nonneg hv)

/-- A foldl of min never exceeds its initial accumulator. -/
lemma foldl_min_le_init (l : List ℕ) : ∀ init : ℕ, l.foldl min init ≤ init := by
  induction l with
  | nil => intro init; simp
  | cons a rest ih =>
    intro init
    exact le_trans (ih (min init a)) (min_le_left _ _)

/-- A foldl of min is a lower bound of the list's members. -/
lemma foldl_min_le (l : List ℕ) : ∀ init : ℕ, ∀ t ∈ l, l.foldl min init ≤ t := by
  induction l with
  | nil => intro init t ht; cases ht
  | cons a rest ih =>
    intro init t ht
    rcases List.mem_cons.mp ht with rfl | ht
    · exact le_trans (foldl_min_le_init rest (min init t)) (min_le_right _ _)
    · exact ih (min init a) t ht

/-- The running fastest time is a lower bound of the run times. -/
lemma fastestOf_le {l : List ℕ} {t : ℕ} (ht : t ∈ l) : fastestOf l ≤ t :=
  foldl_min_le l _ t ht

/-- A run at least as slow as a positive fastest time has a nonnegative
percent-slower value. -/
lemma percentSlower_nonneg {t fastest : ℕ} (hle : fastest ≤ t) (hpos : 0 < fastest) :
    0 ≤ percentSlower t fastest := by
  unfold percentSlower
  have hf : (0 : ℚ) < (fastest : ℚ) := by exact_mod_cast hpos
  have ht : (fastest : ℚ) ≤ (t : ℚ) := by exact_mod_cast hle
  have : (1 : ℚ) ≤ (t : ℚ) / (fastest : ℚ) := (one_le_div hf).mpr ht
  nlinarith

/-! ### Claims -/

/-- C1: for every percent-slower value v >= 0 the bucket-index function
is the piecewise floor mapping of the spec with results above 199
clamped to 199, and the values 0, 5, 10, 200 land in buckets
0, 14, 19, 47. -/
theorem hist_idx_piecewise (v : ℚ) (hv : 0 ≤ v) :
    hist_idx v BUCKETS =
      min 199 (if v < 1 then ⌊10 * v⌋
        else if v < 20 then 10 + ⌊v - 1⌋
        else 29 + ⌊(v - 20) / 10⌋) ∧
    hist_idx 0 BUCKETS = 0 ∧ hist_idx 5 BUCKETS = 14 ∧
    hist_idx 10 BUCKETS = 19 ∧ hist_idx 200 BUCKETS = 47 := by
  refine ⟨?_, ?_, ?_, ?_, ?_⟩
  · rw [hist_idx_eq_min]
    congr 1
    unfold hist_idx_raw
    split_ifs with h1 h2
    · rw [c_trunc_of_nonneg (by positivity)]
    · have h1' : (1 : ℚ) ≤ v := not_lt.mp h1
      rw [c_trunc_of_nonneg (by linarith)]
    · have h2' : (20 : ℚ) ≤ v := not_lt.mp h2
      rw [c_trunc_of_nonneg (div_nonneg (by linarith) (by norm_num))]
  all_goals norm_num [hist_idx, hist_idx_raw, c_trunc, BUCKETS, Int.floor_ofNat]

/-- C1 witness at v = 5. -/
theorem hist_idx_piecewise_witness :
    (0 : ℚ) ≤ 5 ∧
    (hist_idx 5 BUCKETS =
      min 199 (if (5 : ℚ) < 1 then ⌊10 * (5 : ℚ)⌋
        else if (5 : ℚ) < 20 then 10 + ⌊(5 : ℚ) - 1⌋
        else 29 + ⌊((5 : ℚ) - 20) / 10⌋) ∧
    hist_idx 0 BUCKETS = 0 ∧ hist_idx 5 BUCKETS = 14 ∧
    hist_idx 10 BUCKETS = 19 ∧ hist_idx 200 BUCKETS = 47) :=
  ⟨by norm_num, hist_idx_piecewise 5 (by norm_num)⟩

/-- The inverse mapping hist_val hits its own bucket exactly. -/
lemma hist_idx_hist_val {i : ℤ} (h0 : 0 ≤ i) (h1 : i ≤ 199) :
    hist_idx (hist_val i) BUCKETS = i := by
  rw [hist_idx_eq_min]
  have hraw : hist_idx_raw (hist_val i) = i := by
    unfold hist_val hist_idx_raw
    rcases lt_or_le i 10 with hi | hi
    · rw [if_pos hi]
      have hc : ((i : ℚ) / 10) < 1 := by
        rw [div_lt_one (by norm_num)]
        exact_mod_cast lt_of_lt_of_le hi (by norm_num)
      rw [if_pos hc]
      have harg : (10 : ℚ) * ((i : ℚ) / 10) = (i : ℚ) := by field_simp
      rw [harg, c_trunc_of_nonneg (by exact_mod_cast h0), Int.floor_intCast]
    · rw [if_neg (not_lt.mpr hi)]
      rcases lt_or_le i 29 with hi2 | hi2
      · rw [if_pos hi2]
        have hiq : (10 : ℚ) ≤ (i : ℚ) := by exact_mod_cast hi
        have hiq2 : (i : ℚ) < 29 := by exact_mod_cast hi2
        rw [if_neg (by linarith), if_pos (by linarith)]
        have harg : (i : ℚ) - 10 + 1 - 1 = ((i - 10 : ℤ) : ℚ) := by push_cast; ring
        rw [harg, c_trunc_of_nonneg (by push_cast; linarith), Int.floor_intCast]
        omega
      · rw [if_neg (not_lt.mpr hi2)]
        have hiq : (29 : ℚ) ≤ (i : ℚ) := by exact_mod_cast hi2
        rw [if_neg (by nlinarith), if_neg (by nlinarith)]
        have harg : (((i : ℚ) - 29) * 10 + 20 - 20) / 10 = ((i - 29 : ℤ) : ℚ) := by
          push_cast; field_simp
        rw [harg, c_trunc_of_nonneg (by push_cast; linarith), Int.floor_intCast]
        omega
  rw [hraw, min_eq_right h1]

/-- C2: for every bucket index i in 0..199, feeding the bucket's
minimum value hist_val(i) back through the bucketing rule yields an
index at most i lying in the same step-size band, and in fact the
round trip is the identity. -/
theorem hist_val_round_trip (i : ℤ) (h0 : 0 ≤ i) (h1 : i ≤ 199) :
    hist_idx (hist_val i) BUCKETS ≤ i ∧
    stepBand (hist_idx (hist_val i) BUCKETS) = stepBand i ∧
    hist_idx (hist_val i) BUCKETS = i := by
  have h := hist_idx_hist_val h0 h1
  exact ⟨le_of_eq h, by rw [h], h⟩

/-- C2 witness at i = 14. -/
theorem hist_val_round_trip_witness :
    (0 : ℤ) ≤ 14 ∧ (14 : ℤ) ≤ 199 ∧
    (hist_idx (hist_val 14) BUCKETS ≤ 14 ∧
     stepBand (hist_idx (hist_val 14) BUCKETS) = stepBand 14 ∧
     hist_idx (hist_val 14) BUCKETS = 14) :=
  ⟨by norm_num, by norm_num, hist_val_round_trip 14 (by norm_num) (by norm_num)⟩

/-- The histogram pass succeeds and adds one count per run whenever
every run's bucket index is nonnegative. -/
lemma histPass_sum (fastest : ℕ) (l : List ℕ) :
    ∀ h0 : ℕ → ℕ,
      (∀ t ∈ l, 0 ≤ hist_idx (percentSlower t fastest) BUCKETS) →
      ∃ h, histPass fastest l h0 = some h ∧
        (∑ j ∈ Finset.range 200, h j) = (∑ j ∈ Finset.range 200, h0 j) + l.length := by
  induction l with
  | nil => exact fun h0 _ => ⟨h0, rfl, by simp⟩
  | cons t rest ih =>
    intro h0 hnn
    have hidx0 : 0 ≤ hist_idx (percentSlower t fastest) BUCKETS := hnn t (by simp)
    have hidx1 : hist_idx (percentSlower t fastest) BUCKETS ≤ 199 := hist_idx_le _
    obtain ⟨h, hrun, hsum⟩ := ih
      (fun j => if (j : ℤ) = hist_idx (percentSlower t fastest) BUCKETS
        then h0 j + 1 else h0 j)
      (fun u hu => hnn u (List.mem_cons_of_mem _ hu))
    refine ⟨h, ?_, ?_⟩
    · rw [histPass, if_neg (not_lt.mpr hidx0)]
      exact hrun
    · rw [hsum]
      have step : ∀ j : ℕ,
          (if (j : ℤ) = hist_idx (percentSlower t fastest) BUCKETS
            then h0 j + 1 else h0 j) =
          h0 j + (if j = (hist_idx (percentSlower t fastest) BUCKETS).toNat
            then 1 else 0) := by
        intro j
        by_cases hj : (j : ℤ) = hist_idx (percentSlower t fastest) BUCKETS
        · rw [if_pos hj, if_pos (by omega)]
        · rw [if_neg hj, if_neg (by omega), Nat.add_zero]
      have hmem : (hist_idx (percentSlower t fastest) BUCKETS).toNat ∈
          Finset.range 200 := Finset.mem_range.mpr (by omega)
      simp only [step]
      rw [Finset.sum_add_distrib, Finset.sum_ite_eq' (Finset.range 200)
        (hist_idx (percentSlower t fastest) BUCKETS).toNat (fun _ => 1)]
      simp [hmem]
      omega

/-- C3: for every nonempty completed run set with a positive fastest
time, the histogram pass completes and the 200 bucket counts sum to
the number of completed runs. -/
theorem histogram_conservation (l : List ℕ) (_hne : l ≠ []) (hpos : 0 < fastestOf l) :
    ∃ h, histPass (fastestOf l) l (fun _ => 0) = some h ∧
      (∑ j ∈ Finset.range 200, h j) = l.length := by
  obtain ⟨h, hrun, hsum⟩ := histPass_sum (fastestOf l) l (fun _ => 0)
    (fun t ht => hist_idx_nonneg (percentSlower_nonneg (fastestOf_le ht) hpos))
  exact ⟨h, hrun, by simpa using hsum⟩

/-- C3 witness on the run set [100, 105, 110, 300]. -/
theorem histogram_conservation_witness :
    ([100, 105, 110, 300] : List ℕ) ≠ [] ∧
    0 < fastestOf [100, 105, 110, 300] ∧
    ∃ h, histPass (fastestOf [100, 105, 110, 300]) [100, 105, 110, 300]
        (fun _ => 0) = some h ∧
      (∑ j ∈ Finset.range 200, h j) = 4 :=
  ⟨by simp, by decide,
    by simpa using histogram_conservation [100, 105, 110, 300] (by simp) (by decide)⟩

/-- C9: when the fastest time (the running minimum of the completed
runs) is positive, every run's percent-slower value is nonnegative,
every bucket index is nonnegative, and the negative-index error branch
of the histogram pass is never taken. -/
theorem negative_idx_unreachable (l : List ℕ) (hpos : 0 < fastestOf l) :
    (∀ t ∈ l, 0 ≤ percentSlower t (fastestOf l) ∧
      0 ≤ hist_idx (percentSlower t (fastestOf l)) BUCKETS) ∧
    (histPass (fastestOf l) l (fun _ => 0)).isSome = true := by
  constructor
  · intro t ht
    have h1 := percentSlower_nonneg (fastestOf_le ht) hpos
    exact ⟨h1, hist_idx_nonneg h1⟩
  · obtain ⟨h, hrun, _⟩ := histPass_sum (fastestOf l) l (fun _ => 0)
      (fun t ht => hist_idx_nonneg (percentSlower_nonneg (fastestOf_le ht) hpos))
    rw [hrun]
    rfl

/-- C9 witness on the run set [100, 105, 110, 300]. -/
theorem negative_idx_unreachable_witness :
    0 < fastestOf [100, 105, 110, 300] ∧
    ((∀ t ∈ ([100, 105, 110, 300] : List ℕ),
        0 ≤ percentSlower t (fastestOf [100, 105, 110, 300]) ∧
        0 ≤ hist_idx (percentSlower t (fastestOf [100, 105, 110, 300])) BUCKETS) ∧
      (histPass (fastestOf [100, 105, 110, 300]) [100, 105, 110, 300]
        (fun _ => 0)).isSome = true) :=
  ⟨by decide, negative_idx_unreachable [100, 105, 110, 300] (by decide)⟩

/-- C5: for every completed run count n >= 1, the 50th percentile is
reported exactly when n >= 3, the 90th exactly when n >= 10, the 99th
exactly when n >= 100, the 100th always; with n = 5 only the 50th and
100th appear, and with n = 100 all four appear. -/
theorem percentile_gating (n : ℕ) (_hn : 1 ≤ n) :
    ((50 ∈ reportedPercentiles n ↔ 3 ≤ n) ∧
     (90 ∈ reportedPercentiles n ↔ 10 ≤ n) ∧
     (99 ∈ reportedPercentiles n ↔ 100 ≤ n) ∧
     100 ∈ reportedPercentiles n) ∧
    reportedPercentiles 5 = [50, 100] ∧
    reportedPercentiles 100 = [50, 90, 99, 100] := by
  refine ⟨?_, by decide, by decide⟩
  by_cases h3 : 3 ≤ n <;> by_cases h10 : 10 ≤ n <;> by_cases h100 : 100 ≤ n <;>
    simp [reportedPercentiles, h3, h10, h100]

/-- C5 witness at n = 5. -/
theorem percentile_gating_witness :
    1 ≤ 5 ∧
    (((50 ∈ reportedPercentiles 5 ↔ 3 ≤ 5) ∧
      (90 ∈ reportedPercentiles 5 ↔ 10 ≤ 5) ∧
      (99 ∈ reportedPercentiles 5 ↔ 100 ≤ 5) ∧
      100 ∈ reportedPercentiles 5) ∧
     reportedPercentiles 5 = [50, 100] ∧
     reportedPercentiles 100 = [50, 90, 99, 100]) :=
  ⟨by decide, percentile_gating 5 (by decide)⟩

/-- C6: when the calibration probe reaches candidate count K and the
best of the timed trials is T > 0 microseconds, the calibrator returns
K * target_us / T, and a requested duration of 2T microseconds yields
exactly 2K (no 64-bit overflow in the product). -/
theorem calibration_extrapolation (target_us K T : ℕ) (trials : List ℕ)
    (hT : trials.foldl min (2 ^ 64 - 1) = T) (hT0 : 0 < T)
    (hov : K * target_us < 2 ^ 64) :
    find_count target_us K trials = K * target_us / T ∧
    (target_us = 2 * T → find_count target_us K trials = 2 * K) := by
  have h1 : find_count target_us K trials = K * target_us / T := by
    simp only [find_count, hT]
    rw [Nat.mod_eq_of_lt hov]
  refine ⟨h1, fun htar => ?_⟩
  rw [h1, htar, show K * (2 * T) = 2 * K * T by ring, Nat.mul_div_cancel _ hT0]

/-- C6 witness: K = 7, trials with best time T = 100, target 200 = 2T. -/
theorem calibration_extrapolation_witness :
    ([300, 100, 200] : List ℕ).foldl min (2 ^ 64 - 1) = 100 ∧
    0 < 100 ∧ 7 * 200 < 2 ^ 64 ∧
    (find_count 200 7 [300, 100, 200] = 7 * 200 / 100 ∧
     (200 = 2 * 100 → find_count 200 7 [300, 100, 200] = 2 * 7)) :=
  ⟨by decide, by decide, by decide,
    calibration_extrapolation 200 7 100 [300, 100, 200] (by decide) (by decide) (by decide)⟩

/-- C4: the comparator ullcmp truncates the unsigned 64-bit difference
to a 32-bit int, so on the run set [3000000000, 100] it reports the
larger element as smaller (a negative return for a pair that is in fact
descending); the sort therefore does not order every 64-bit run set
ascending. -/
theorem ullcmp_misorders :
    ullcmp 3000000000 100 = -1294967396 ∧
    ullcmp 3000000000 100 < 0 ∧ (100 : ℕ) < 3000000000 := by
  refine ⟨by decide, by decide, by decide⟩

/-- C7: with zero completed runs, main still performs the summary reads
(the list of indices it reads from the sorted runs_us array is
nonempty) and among them is index -1, i.e. runs_us[runs - 1] with
runs = 0: the empty run set is not rejected before summarization. -/
theorem zero_runs_not_rejected :
    summaryIndices 0 ≠ [] ∧ (-1 : ℤ) ∈ summaryIndices 0 := by
  refine ⟨by decide, by decide⟩

/-- C8: with exactly one completed run, the median read
runs_us[runs * 50 / 100 - 1] uses index -1, which does not lie in
[0, runs): the index bound of the claim fails at runs = 1. -/
theorem one_run_index_oob :
    (-1 : ℤ) ∈ summaryIndices 1 ∧ ¬(0 ≤ (-1 : ℤ) ∧ (-1 : ℤ) < 1) := by
  refine ⟨by decide, by decide⟩

/-- C10: the memory scan wraps only when the advanced offset strictly
exceeds the working-set size, so with stride 64 and a 64-byte working
set the second read is at offset 64 = memsize, one byte past the
buffer: not every read offset is strictly below the working-set
size. -/
theorem memscan_reads_past_end :
    memrunOffsets 64 64 2 0 = [0, 64] ∧
    64 ∈ memrunOffsets 64 64 2 0 ∧ ¬(64 < 64) := by
  refine ⟨by decide, by decide, by decide⟩

end P1bench
